import Mathlib

/-!
Verification development for the `bdlcc::Cache` component of
`src/groups/bdl/bdlcc/bdlcc_cache.h`: a key-value cache with a
watermark-driven eviction policy (LRU or FIFO), an eviction queue of keys,
a hash map from keys to (value handle, queue position), and an optional
post-eviction callback.

Shallow embedding choices:

* `d_map` (a `bsl::unordered_map`) is modelled as an association list
  `List (Key × Value)`; `unordered_map` guarantees at most one entry per
  key, which holds on all reachable states (proved below), so the
  first-match lookup of the association list coincides with the map's
  lookup.
* `d_queue` (a `bsl::list<KeyType>`) is modelled as `List Key`, front at
  the head.  The map stores, per key, an iterator to that key's node in
  the queue; since on every reachable state a key occurs at most once in
  the queue (proved below), the node an iterator designates is the unique
  occurrence of the key, so iterator-based `erase`/`splice` are modelled
  as erasing / moving-to-back the first occurrence of the key.
* the value handle `bsl::shared_ptr<ValueType>` is modelled as the value
  itself; `d_postEvictionCallback` (a `bsl::function`) is modelled by the
  boolean `cbSet` recording whether a callback is installed, and each
  mutating operation returns the list of values the callback is invoked
  with (empty when no callback is installed), in invocation order.
* the reader-writer lock `d_rwlock` guards state but carries no state
  visible to the sequential semantics; lock acquisition/upgrade is not
  modelled.
* the eviction loop of `enforceHighWatermark` is given explicit fuel
  (`d_map.size()` at entry suffices: each iteration removes one map
  entry on every reachable state).
-/

namespace BdlccCache

/-- Eviction policies of `bdlcc::CacheEvictionPolicy::Enum`. -/
inductive CacheEvictionPolicy : Type where
  | e_LRU : CacheEvictionPolicy
  | e_FIFO : CacheEvictionPolicy
  deriving DecidableEq, Repr

/-- State of a `bdlcc::Cache<KeyType, ValueType>` object: the hash map
`d_map`, the eviction queue `d_queue` (front of queue at the list head),
the eviction policy, the two watermarks, and whether a post-eviction
callback is installed (`d_postEvictionCallback` non-empty). -/
structure Cache (Key Value : Type) where
  map : List (Key × Value)
  queue : List Key
  evictionPolicy : CacheEvictionPolicy
  lowWatermark : Nat
  highWatermark : Nat
  cbSet : Bool
  deriving DecidableEq, Repr

variable {Key Value : Type} [DecidableEq Key]

/-- Lookup in the association list modelling `d_map.find(k)`: the value of
the first (on reachable states, unique) entry whose key is `k`. -/
def mapFind (m : List (Key × Value)) (k : Key) : Option Value :=
  match m with
  | [] => none
  | p :: rest => if p.1 = k then some p.2 else mapFind rest k

/-- Removal of the entry for `k`, modelling `d_map.erase(mapItr)` where
`mapItr` designates the (unique) entry with key `k`. -/
def mapErase (m : List (Key × Value)) (k : Key) : List (Key × Value) :=
  match m with
  | [] => []
  | p :: rest => if p.1 = k then rest else p :: mapErase rest k

/-- Replacement of the value of the entry for `k`, modelling
`mapItr->second.first = valuePtr` on the entry of key `k`. -/
def mapReplace (m : List (Key × Value)) (k : Key) (v : Value) :
    List (Key × Value) :=
  match m with
  | [] => []
  | p :: rest => if p.1 = k then (k, v) :: rest else p :: mapReplace rest k v

/-- Removal of the queue node holding key `k`, modelling
`d_queue.erase(queueItr)` where `queueItr` designates the (unique) node
holding `k`. -/
def queueErase (q : List Key) (k : Key) : List Key :=
  match q with
  | [] => []
  | x :: rest => if x = k then rest else x :: queueErase rest k

/-- Construction by
`Cache(evictionPolicy, lowWatermark, highWatermark, basicAllocator)`:
empty map and queue, no callback installed. -/
def mkCache (Key Value : Type) (policy : CacheEvictionPolicy)
    (low high : Nat) : Cache Key Value :=
  { map := [], queue := [], evictionPolicy := policy,
    lowWatermark := low, highWatermark := high, cbSet := false }

/-- Accessor `size()`: returns `d_map.size()`. -/
def Cache.size (c : Cache Key Value) : Nat :=
  c.map.length

/-- Private manipulator `evictItem(mapItr)` with `mapItr` designating key
`k`: captures the value handle, erases the queue node and the map entry,
then invokes the post-eviction callback (if one is installed) with the
captured handle.  Returns the new state and the callback invocations.
All call sites pass an iterator obtained from a successful `find`, so the
`none` branch is unreachable there. -/
def Cache.evictItem (c : Cache Key Value) (k : Key) :
    Cache Key Value × List Value :=
  match mapFind c.map k with
  | none => (c, [])
  | some value =>
      ({ c with queue := queueErase c.queue k, map := mapErase c.map k },
       if c.cbSet then [value] else [])

/-- Loop body of `enforceHighWatermark`:
`while (size() >= d_lowWatermark && size() > 0)` evict the item whose key
is `d_queue.front()`.  The fuel argument bounds the iteration count;
`d_map.size()` at entry is enough fuel on every reachable state, because
each iteration removes one map entry. -/
def Cache.evictLoop (c : Cache Key Value) : Nat → Cache Key Value × List Value
  | 0 => (c, [])
  | fuel + 1 =>
      if c.lowWatermark ≤ c.map.length ∧ 0 < c.map.length then
        match c.queue with
        | [] => (c, [])
        | k :: _ =>
            let r := Cache.evictItem c k
            let r2 := Cache.evictLoop r.1 fuel
            (r2.1, r.2 ++ r2.2)
      else (c, [])

/-- Private manipulator `enforceHighWatermark()`: returns immediately when
`d_map.size() < d_highWatermark`; otherwise evicts from the front of the
queue while `size() >= d_lowWatermark && size() > 0`. -/
def Cache.enforceHighWatermark (c : Cache Key Value) :
    Cache Key Value × List Value :=
  if c.map.length < c.highWatermark then (c, [])
  else Cache.evictLoop c c.map.length

/-- Manipulator `insert(key, valuePtr)`: first `enforceHighWatermark()`,
then look up `key`; if present, replace its value handle in place and
splice its queue node to the back of the queue; otherwise push `key` onto
the back of the queue and emplace the new map entry. -/
def Cache.insert (c : Cache Key Value) (key : Key) (valuePtr : Value) :
    Cache Key Value × List Value :=
  let r := Cache.enforceHighWatermark c
  let c1 := r.1
  match mapFind c1.map key with
  | some _ =>
      ({ c1 with map := mapReplace c1.map key valuePtr,
                 queue := queueErase c1.queue key ++ [key] }, r.2)
  | none =>
      ({ c1 with queue := c1.queue ++ [key],
                 map := (key, valuePtr) :: c1.map }, r.2)

/-- Manipulator `tryGetValue(value, key, modifyEvictionQueue)`: returns
`none` (return code 1) when `key` is absent; otherwise loads the value
handle (`some v`, return code 0) and, when the policy is LRU and
`modifyEvictionQueue` is true and the key's queue node is not already the
last node, splices the node to the back of the queue. -/
def Cache.tryGetValue (c : Cache Key Value) (key : Key)
    (modifyEvictionQueue : Bool) : Cache Key Value × Option Value :=
  match mapFind c.map key with
  | none => (c, none)
  | some v =>
      if c.evictionPolicy = CacheEvictionPolicy.e_LRU ∧
          modifyEvictionQueue = true then
        if c.queue.getLast? = some key then (c, some v)
        else ({ c with queue := queueErase c.queue key ++ [key] }, some v)
      else (c, some v)

/-- Manipulator `popFront()`: when `size() > 0`, evicts the item whose key
is `d_queue.front()` and returns 0; otherwise returns 1.  The inner `[]`
branch corresponds to a state where the map is non-empty but the queue is
empty, which the source rules out with `BSLS_ASSERT` and which is
unreachable (proved below). -/
def Cache.popFront (c : Cache Key Value) :
    Cache Key Value × List Value × Nat :=
  if 0 < Cache.size c then
    match c.queue with
    | [] => (c, [], 0)
    | k :: _ =>
        let r := Cache.evictItem c k
        (r.1, r.2, 0)
  else (c, [], 1)

/-- Manipulator `erase(key)`: when `key` is present, evicts that item and
returns 0; otherwise returns 1. -/
def Cache.erase (c : Cache Key Value) (key : Key) :
    Cache Key Value × List Value × Nat :=
  match mapFind c.map key with
  | none => (c, [], 1)
  | some _ =>
      let r := Cache.evictItem c key
      (r.1, r.2, 0)

/-- Manipulator `setPostEvictionCallback(postEvictionCallback)`: replaces
the stored callback; modelled as setting whether a callback is
installed. -/
def Cache.setPostEvictionCallback (c : Cache Key Value) (cb : Bool) :
    Cache Key Value :=
  { c with cbSet := cb }

/-- Manipulator `clear()`: `d_map.clear(); d_queue.clear();` with no
callback invocation. -/
def Cache.clear (c : Cache Key Value) : Cache Key Value × List Value :=
  ({ c with map := [], queue := [] }, [])

/-- Rollback action of `QueueProctor::~QueueProctor()`: remove the last
element of the monitored queue (`d_queue_p->pop_back()`). -/
def queueProctorRollback (q : List Key) : List Key :=
  q.dropLast

/-- State left by the not-already-present branch of `insert` when the map
emplacement step fails (e.g. by allocator exhaustion) after
`d_queue.push_back(key)`: the exception propagates before
`proctor.release()`, so the `QueueProctor` destructor pops the queue's
last element.  `c` is the cache state at entry to that branch (after
`enforceHighWatermark` and the failed lookup). -/
def Cache.insertNewKeyMapFailure (c : Cache Key Value) (key : Key) :
    Cache Key Value :=
  { c with queue := queueProctorRollback (c.queue ++ [key]) }

/-- Configuration of a cache that none of the operations may change: the
eviction policy, the two watermarks, and whether a callback is
installed. -/
def params (c : Cache Key Value) : CacheEvictionPolicy × Nat × Nat × Bool :=
  (c.evictionPolicy, c.lowWatermark, c.highWatermark, c.cbSet)

/-- Structural invariant of the cache (spec section 8, claim C3): the
eviction queue holds each key at most once and is, up to order, exactly
the key set of the map. -/
def WF (c : Cache Key Value) : Prop :=
  c.queue.Nodup ∧ c.queue.Perm (c.map.map Prod.fst)

/-- Auxiliary invariant of the FIFO runs used for claim C5: the cache maps
every key on the queue to itself, and no other key. -/
def KV (c : Cache Key Key) : Prop :=
  ∀ k : Key, mapFind c.map k = if k ∈ c.queue then some k else none

/-- States reachable from a freshly constructed cache by the public
manipulators. -/
inductive Reachable {Key Value : Type} [DecidableEq Key] :
    Cache Key Value → Prop where
  | mkStep (policy : CacheEvictionPolicy) (low high : Nat) :
      Reachable (mkCache Key Value policy low high)
  | insStep {c : Cache Key Value} (k : Key) (v : Value) :
      Reachable c → Reachable (Cache.insert c k v).1
  | getStep {c : Cache Key Value} (k : Key) (m : Bool) :
      Reachable c → Reachable (Cache.tryGetValue c k m).1
  | popStep {c : Cache Key Value} :
      Reachable c → Reachable (Cache.popFront c).1
  | eraseStep {c : Cache Key Value} (k : Key) :
      Reachable c → Reachable (Cache.erase c k).1
  | clearStep {c : Cache Key Value} :
      Reachable c → Reachable (Cache.clear c).1
  | cbStep {c : Cache Key Value} (b : Bool) :
      Reachable c → Reachable (Cache.setPostEvictionCallback c b)

/-- A single client call in a run mixing inserts and reads. -/
inductive CacheOp (Key Value : Type) where
  | opInsert : Key → Value → CacheOp Key Value
  | opGet : Key → Bool → CacheOp Key Value
  deriving DecidableEq, Repr

/-- Execution of a list of calls, accumulating the callback invocations of
the whole run in order. -/
def runOps (c : Cache Key Value) :
    List (CacheOp Key Value) → Cache Key Value × List Value
  | [] => (c, [])
  | op :: rest =>
      let r := match op with
        | CacheOp.opInsert k v => Cache.insert c k v
        | CacheOp.opGet k m => ((Cache.tryGetValue c k m).1, [])
      let r2 := runOps r.1 rest
      (r2.1, r.2 ++ r2.2)

/-- Keys of the insert calls of a run, in call order. -/
def insertKeys : List (CacheOp Key Value) → List Key
  | [] => []
  | CacheOp.opInsert k _ :: rest => k :: insertKeys rest
  | CacheOp.opGet _ _ :: rest => insertKeys rest

/-- Checks that every insert call of a run inserts its key as its own
value, so that callback invocations identify the entries that left the
cache. -/
def insSelfVals : List (CacheOp Key Key) → Bool
  | [] => true
  | CacheOp.opInsert k v :: rest => decide (v = k) && insSelfVals rest
  | CacheOp.opGet _ _ :: rest => insSelfVals rest

/-- Repeated `popFront` calls, accumulating the callback invocations. -/
def drainCalls (c : Cache Key Value) : Nat → List Value
  | 0 => []
  | fuel + 1 =>
      let r := Cache.popFront c
      r.2.1 ++ drainCalls r.1 fuel

/-- Run of claim C5: a freshly constructed FIFO cache with the given
watermarks and a callback installed, executing a list of calls. -/
def fifoRun (Key : Type) [DecidableEq Key] (low high : Nat)
    (ops : List (CacheOp Key Key)) : Cache Key Key × List Key :=
  runOps (Cache.setPostEvictionCallback
    (mkCache Key Key CacheEvictionPolicy.e_FIFO low high) true) ops

/-- Scenario of claim C1 (spec section 8): empty LRU cache with
lowWatermark 3 and highWatermark 4 (with a post-eviction callback
installed so eviction is observable), after inserting keys 0, 1, 2 with
values 100, 101, 102 and then key 1 again with value 201. -/
def c1AfterReinsert : Cache Nat Nat :=
  (Cache.insert (Cache.insert (Cache.insert (Cache.insert
    (Cache.setPostEvictionCallback (mkCache Nat Nat
      CacheEvictionPolicy.e_LRU 3 4) true) 0 100).1 1 101).1 2 102).1
    1 201).1

/-- Scenario of claim C1, next step: insert key 3. -/
def c1InsertThree : Cache Nat Nat × List Nat :=
  Cache.insert c1AfterReinsert 3 103

/-- Scenario of claim C1, last step: insert key 4. -/
def c1InsertFour : Cache Nat Nat × List Nat :=
  Cache.insert c1InsertThree.1 4 104

/-- Scenario of claim C4: empty LRU cache with lowWatermark 2 and
highWatermark 3 and a callback installed; insert keys 0 (A), 1 (B), 2 (C)
with values 10, 11, 12, read key 0 with `modifyEvictionQueue` true, then
insert key 3 (D) with value 13. -/
def c4InsertD : Cache Nat Nat × List Nat :=
  Cache.insert
    (Cache.tryGetValue (Cache.insert (Cache.insert (Cache.insert
      (Cache.setPostEvictionCallback (mkCache Nat Nat
        CacheEvictionPolicy.e_LRU 2 3) true) 0 10).1 1 11).1 2 12).1
      0 true).1
    3 13

/-- Scenario of claim C10: LRU cache with lowWatermark 1 and
highWatermark 1 and a callback installed, holding only key 7 with
value 10; then insert key 7 again with value 20. -/
def c10Reinsert : Cache Nat Nat × List Nat :=
  Cache.insert
    (Cache.insert (Cache.setPostEvictionCallback
      (mkCache Nat Nat CacheEvictionPolicy.e_LRU 1 1) true) 7 10).1
    7 20

/-- Scenario of claim C2's counterexample: LRU cache with lowWatermark 3
and highWatermark 4 after inserting the four distinct keys 0, 1, 2, 3. -/
def c2FourInserts : Cache Nat Nat :=
  (Cache.insert (Cache.insert (Cache.insert (Cache.insert
    (mkCache Nat Nat CacheEvictionPolicy.e_LRU 3 4)
    0 100).1 1 101).1 2 102).1 3 103).1

/-! Basic lemmas on the map and queue primitives. -/

theorem mapFind_eq_none {m : List (Key × Value)} {k : Key} :
    mapFind m k = none ↔ k ∉ m.map Prod.fst := by
  induction m with
  | nil => simp [mapFind]
  | cons p rest ih =>
      by_cases h : p.1 = k
      · simp [mapFind, h]
      · have hne : ¬ k = p.1 := fun hh => h hh.symm
        simp [mapFind, h, ih, hne]

theorem mapFind_isSome {m : List (Key × Value)} {k : Key} :
    (mapFind m k).isSome ↔ k ∈ m.map Prod.fst := by
  cases hf : mapFind m k with
  | none =>
      simp only [Option.isSome_none, Bool.false_eq_true, false_iff]
      exact mapFind_eq_none.mp hf
  | some v =>
      have hne : mapFind m k ≠ none := by simp [hf]
      rw [Ne, mapFind_eq_none, not_not] at hne
      simp [hne]

theorem map_fst_mapReplace (m : List (Key × Value)) (k : Key) (v : Value) :
    (mapReplace m k v).map Prod.fst = m.map Prod.fst := by
  induction m with
  | nil => rfl
  | cons p rest ih =>
      by_cases h : p.1 = k <;> simp [mapReplace, h, ih]

theorem length_mapReplace (m : List (Key × Value)) (k : Key) (v : Value) :
    (mapReplace m k v).length = m.length := by
  have := congrArg List.length (map_fst_mapReplace m k v)
  simpa using this

theorem mapFind_mapReplace_self {m : List (Key × Value)} {k : Key} {w : Value}
    (h : mapFind m k = some w) (v : Value) :
    mapFind (mapReplace m k v) k = some v := by
  induction m with
  | nil => simp [mapFind] at h
  | cons p rest ih =>
      by_cases hp : p.1 = k
      · simp [mapReplace, hp, mapFind]
      · simp [mapFind, hp] at h
        simp [mapReplace, hp, mapFind, ih h]

theorem map_fst_mapErase (m : List (Key × Value)) (k : Key) :
    (mapErase m k).map Prod.fst = queueErase (m.map Prod.fst) k := by
  induction m with
  | nil => rfl
  | cons p rest ih =>
      by_cases h : p.1 = k <;> simp [mapErase, queueErase, h, ih]

theorem length_mapErase {m : List (Key × Value)} {k : Key} {v : Value}
    (h : mapFind m k = some v) :
    (mapErase m k).length + 1 = m.length := by
  induction m with
  | nil => simp [mapFind] at h
  | cons p rest ih =>
      by_cases hp : p.1 = k
      · simp [mapErase, hp]
      · simp [mapFind, hp] at h
        simp [mapErase, hp, ih h]

theorem mapFind_mapErase_ne {m : List (Key × Value)} {k k2 : Key}
    (h : k2 ≠ k) : mapFind (mapErase m k) k2 = mapFind m k2 := by
  induction m with
  | nil => rfl
  | cons p rest ih =>
      by_cases hp : p.1 = k
      · simp [mapErase, mapFind, hp,
          (show ¬ k = k2 from fun hh => h hh.symm)]
      · by_cases hp2 : p.1 = k2 <;>
          simp [mapErase, mapFind, hp, hp2, h, ih]

theorem mapFind_mapErase_self {m : List (Key × Value)} {k : Key}
    (hn : (m.map Prod.fst).Nodup) : mapFind (mapErase m k) k = none := by
  induction m with
  | nil => rfl
  | cons p rest ih =>
      rw [List.map_cons, List.nodup_cons] at hn
      by_cases hp : p.1 = k
      · have he : mapErase (p :: rest) k = rest := by simp [mapErase, hp]
        rw [he, mapFind_eq_none]
        subst hp
        exact hn.1
      · simp [mapErase, mapFind, hp, ih hn.2]

theorem queueErase_eq_erase (q : List Key) (k : Key) :
    queueErase q k = q.erase k := by
  induction q with
  | nil => rfl
  | cons x rest ih =>
      by_cases h : x = k <;> simp [queueErase, List.erase_cons, h, ih]

theorem queueErase_cons_self (k : Key) (rest : List Key) :
    queueErase (k :: rest) k = rest := by
  simp [queueErase]

theorem moveToBack_perm {q : List Key} {k : Key} (hk : k ∈ q) :
    (queueErase q k ++ [k]).Perm q := by
  rw [queueErase_eq_erase]
  exact (List.perm_append_singleton k (q.erase k)).trans
    (List.perm_cons_erase hk).symm

theorem moveToBack_nodup {q : List Key} (k : Key) (hn : q.Nodup) :
    (queueErase q k ++ [k]).Nodup := by
  rw [queueErase_eq_erase]
  refine (List.perm_append_singleton k (q.erase k)).symm.nodup ?_
  rw [List.nodup_cons]
  exact ⟨hn.not_mem_erase, hn.erase k⟩

/-! Invariant preservation for the private manipulators. -/

theorem evictItem_spec {c : Cache Key Value} {k : Key} {v : Value}
    (h : mapFind c.map k = some v) :
    Cache.evictItem c k =
      ({ c with queue := queueErase c.queue k, map := mapErase c.map k },
       if c.cbSet then [v] else []) := by
  simp [Cache.evictItem, h]

theorem evictItem_wf {c : Cache Key Value} (hw : WF c) (k : Key) :
    WF (Cache.evictItem c k).1 := by
  rcases hf : mapFind c.map k with _ | v
  · simp [Cache.evictItem, hf]
    exact hw
  · rw [evictItem_spec hf]
    refine ⟨?_, ?_⟩
    · rw [queueErase_eq_erase]
      exact hw.1.erase k
    · rw [map_fst_mapErase, queueErase_eq_erase, queueErase_eq_erase]
      exact hw.2.erase k

theorem params_evictItem (c : Cache Key Value) (k : Key) :
    params (Cache.evictItem c k).1 = params c := by
  rcases hf : mapFind c.map k with _ | v <;>
    simp [Cache.evictItem, hf, params]

theorem evictItem_length {c : Cache Key Value} {k : Key} {v : Value}
    (h : mapFind c.map k = some v) :
    (Cache.evictItem c k).1.map.length + 1 = c.map.length := by
  rw [evictItem_spec h]
  exact length_mapErase h

theorem wf_front_mem {c : Cache Key Value} (hw : WF c) {k : Key}
    {rest : List Key} (hq : c.queue = k :: rest) :
    ∃ v, mapFind c.map k = some v := by
  have hk : k ∈ c.map.map Prod.fst := hw.2.mem_iff.mp (by simp [hq])
  have := mapFind_isSome.mpr hk
  rcases hf : mapFind c.map k with _ | v
  · rw [hf] at this
    simp at this
  · exact ⟨v, rfl⟩

theorem wf_queue_ne_nil {c : Cache Key Value} (hw : WF c)
    (hm : 0 < c.map.length) : c.queue ≠ [] := by
  intro hq
  have := hw.2.length_eq
  rw [hq] at this
  simp at this
  omega

theorem evictLoop_wf :
    ∀ (fuel : Nat) (c : Cache Key Value), WF c → c.map.length ≤ fuel →
      WF (Cache.evictLoop c fuel).1 ∧
      params (Cache.evictLoop c fuel).1 = params c ∧
      ((Cache.evictLoop c fuel).1.map.length < c.lowWatermark ∨
        (Cache.evictLoop c fuel).1.map.length = 0) := by
  intro fuel
  induction fuel with
  | zero =>
      intro c hw hle
      have : c.map.length = 0 := Nat.le_zero.mp hle
      exact ⟨hw, rfl, Or.inr this⟩
  | succ fuel ih =>
      intro c hw hle
      by_cases hcond : c.lowWatermark ≤ c.map.length ∧ 0 < c.map.length
      · rcases hq : c.queue with _ | ⟨k, rest⟩
        · exact absurd hq (wf_queue_ne_nil hw hcond.2)
        · obtain ⟨v, hv⟩ := wf_front_mem hw hq
          have hlen := evictItem_length hv
          have hwf1 := evictItem_wf hw k
          have hp1 := params_evictItem c k
          have hle1 : (Cache.evictItem c k).1.map.length ≤ fuel := by
            have h2 : (Cache.evictItem c k).1.map.length + 1 ≤ fuel + 1 := by
              rw [hlen]
              exact hle
            exact Nat.succ_le_succ_iff.mp h2
          obtain ⟨hw2, hp2, hlt2⟩ := ih (Cache.evictItem c k).1 hwf1 hle1
          have hlow : (Cache.evictItem c k).1.lowWatermark =
              c.lowWatermark := by
            have := congrArg (fun p => p.2.1) hp1
            simpa [params] using this
          refine ⟨?_, ?_, ?_⟩
          · simpa [Cache.evictLoop, hcond, hq] using hw2
          · simp only [Cache.evictLoop, if_pos hcond, hq]
            exact hp2.trans hp1
          · simp only [Cache.evictLoop, if_pos hcond, hq]
            rw [hlow] at hlt2
            exact hlt2
      · have : Cache.evictLoop c (fuel + 1) = (c, []) := by
          simp [Cache.evictLoop, hcond]
        rw [this]
        refine ⟨hw, rfl, ?_⟩
        rcases Nat.lt_or_ge c.map.length c.lowWatermark with h | h
        · exact Or.inl h
        · have h0 : c.map.length = 0 := by
            rcases Nat.eq_zero_or_pos c.map.length with h0 | hpos
            · exact h0
            · exact absurd ⟨h, hpos⟩ hcond
          exact Or.inr h0

theorem enforce_wf {c : Cache Key Value} (hw : WF c) :
    WF (Cache.enforceHighWatermark c).1 ∧
    params (Cache.enforceHighWatermark c).1 = params c ∧
    ((Cache.enforceHighWatermark c).1.map.length < c.lowWatermark ∨
      (Cache.enforceHighWatermark c).1.map.length = 0 ∨
      (Cache.enforceHighWatermark c = (c, []) ∧
        c.map.length < c.highWatermark)) := by
  by_cases hlt : c.map.length < c.highWatermark
  · have : Cache.enforceHighWatermark c = (c, []) := by
      simp [Cache.enforceHighWatermark, hlt]
    rw [this]
    exact ⟨hw, rfl, Or.inr (Or.inr ⟨rfl, hlt⟩)⟩
  · have he : Cache.enforceHighWatermark c =
        Cache.evictLoop c c.map.length := by
      simp [Cache.enforceHighWatermark, hlt]
    obtain ⟨h1, h2, h3⟩ := evictLoop_wf c.map.length c hw (Nat.le_refl _)
    rw [he]
    refine ⟨h1, h2, ?_⟩
    rcases h3 with h | h
    · exact Or.inl h
    · exact Or.inr (Or.inl h)

/-! Invariant preservation for the public manipulators. -/

theorem insert_eq_new {c : Cache Key Value} {k : Key}
    (hf : mapFind (Cache.enforceHighWatermark c).1.map k = none) (v : Value) :
    Cache.insert c k v =
      ({ (Cache.enforceHighWatermark c).1 with
          queue := (Cache.enforceHighWatermark c).1.queue ++ [k],
          map := (k, v) :: (Cache.enforceHighWatermark c).1.map },
        (Cache.enforceHighWatermark c).2) := by
  simp [Cache.insert, hf]

theorem insert_eq_existing {c : Cache Key Value} {k : Key} {w : Value}
    (hf : mapFind (Cache.enforceHighWatermark c).1.map k = some w)
    (v : Value) :
    Cache.insert c k v =
      ({ (Cache.enforceHighWatermark c).1 with
          map := mapReplace (Cache.enforceHighWatermark c).1.map k v,
          queue :=
            queueErase (Cache.enforceHighWatermark c).1.queue k ++ [k] },
        (Cache.enforceHighWatermark c).2) := by
  simp [Cache.insert, hf]

theorem nodup_append_singleton {q : List Key} {k : Key} (hq : q.Nodup)
    (hk : k ∉ q) : (q ++ [k]).Nodup :=
  (List.perm_append_singleton k q).symm.nodup (List.nodup_cons.mpr ⟨hk, hq⟩)

theorem insert_wf {c : Cache Key Value} (hw : WF c) (k : Key) (v : Value) :
    WF (Cache.insert c k v).1 ∧
    params (Cache.insert c k v).1 = params c := by
  obtain ⟨hw1, hp1, -⟩ := enforce_wf hw
  rcases hf : mapFind (Cache.enforceHighWatermark c).1.map k with _ | w
  · have hnotin : k ∉ (Cache.enforceHighWatermark c).1.map.map Prod.fst :=
      mapFind_eq_none.mp hf
    have hnq : k ∉ (Cache.enforceHighWatermark c).1.queue := fun hk =>
      hnotin (hw1.2.mem_iff.mp hk)
    rw [insert_eq_new hf v]
    refine ⟨⟨nodup_append_singleton hw1.1 hnq, ?_⟩, ?_⟩
    · exact (List.perm_append_singleton k _).trans (hw1.2.cons k)
    · simp only [params] at hp1 ⊢
      exact hp1
  · have hkq : k ∈ (Cache.enforceHighWatermark c).1.queue :=
      hw1.2.mem_iff.mpr (mapFind_isSome.mp (by simp [hf]))
    rw [insert_eq_existing hf v]
    refine ⟨⟨moveToBack_nodup k hw1.1, ?_⟩, ?_⟩
    · rw [map_fst_mapReplace]
      exact (moveToBack_perm hkq).trans hw1.2
    · simp only [params] at hp1 ⊢
      exact hp1

theorem tryGetValue_wf {c : Cache Key Value} (hw : WF c) (k : Key)
    (m : Bool) :
    WF (Cache.tryGetValue c k m).1 ∧
    params (Cache.tryGetValue c k m).1 = params c := by
  rcases hf : mapFind c.map k with _ | v
  · simp only [Cache.tryGetValue, hf]
    exact ⟨hw, by trivial⟩
  · by_cases hcond : c.evictionPolicy = CacheEvictionPolicy.e_LRU ∧
        m = true
    · by_cases hlast : c.queue.getLast? = some k
      · simp only [Cache.tryGetValue, hf, if_pos hcond, if_pos hlast]
        exact ⟨hw, by trivial⟩
      · have hk : k ∈ c.queue :=
          hw.2.mem_iff.mpr (mapFind_isSome.mp (by simp [hf]))
        simp only [Cache.tryGetValue, hf, if_pos hcond, if_neg hlast]
        refine ⟨⟨moveToBack_nodup k hw.1, (moveToBack_perm hk).trans hw.2⟩,
          ?_⟩
        simp [params]
    · simp only [Cache.tryGetValue, hf, if_neg hcond]
      exact ⟨hw, by trivial⟩

theorem popFront_wf {c : Cache Key Value} (hw : WF c) :
    WF (Cache.popFront c).1 ∧
    params (Cache.popFront c).1 = params c := by
  by_cases hpos : 0 < Cache.size c
  · rcases hq : c.queue with _ | ⟨k, rest⟩
    · simp only [Cache.popFront, if_pos hpos, hq]
      exact ⟨hw, by trivial⟩
    · simp only [Cache.popFront, if_pos hpos, hq]
      exact ⟨evictItem_wf hw k, params_evictItem c k⟩
  · simp only [Cache.popFront, if_neg hpos]
    exact ⟨hw, by trivial⟩

theorem erase_wf {c : Cache Key Value} (hw : WF c) (k : Key) :
    WF (Cache.erase c k).1 ∧ params (Cache.erase c k).1 = params c := by
  rcases hf : mapFind c.map k with _ | v
  · simp only [Cache.erase, hf]
    exact ⟨hw, by trivial⟩
  · simp only [Cache.erase, hf]
    exact ⟨evictItem_wf hw k, params_evictItem c k⟩

theorem clear_wf (c : Cache Key Value) : WF (Cache.clear c).1 := by
  exact ⟨List.nodup_nil, by simp [Cache.clear]⟩

theorem setCb_wf {c : Cache Key Value} (hw : WF c) (b : Bool) :
    WF (Cache.setPostEvictionCallback c b) := by
  exact ⟨hw.1, hw.2⟩

theorem reachable_wf {c : Cache Key Value} (h : Reachable c) : WF c := by
  induction h with
  | mkStep policy low high => exact ⟨List.nodup_nil, List.Perm.nil⟩
  | insStep k v _ ih => exact (insert_wf ih k v).1
  | getStep k m _ ih => exact (tryGetValue_wf ih k m).1
  | popStep _ ih => exact (popFront_wf ih).1
  | eraseStep k _ ih => exact (erase_wf ih k).1
  | clearStep _ ih => exact clear_wf _
  | cbStep b _ ih => exact setCb_wf ih b

/-! Watermark bounds for `insert` (claim C2). -/

theorem params_fields {c d : Cache Key Value} (h : params c = params d) :
    c.evictionPolicy = d.evictionPolicy ∧ c.lowWatermark = d.lowWatermark ∧
    c.highWatermark = d.highWatermark ∧ c.cbSet = d.cbSet := by
  simpa [params, Prod.ext_iff] using h

theorem enforce_size_succ_le {c : Cache Key Value} (hw : WF c)
    (hlow : 1 ≤ c.lowWatermark) (hlh : c.lowWatermark ≤ c.highWatermark) :
    (Cache.enforceHighWatermark c).1.map.length + 1 ≤ c.highWatermark := by
  obtain ⟨-, -, h3⟩ := enforce_wf hw
  rcases h3 with h | h | ⟨heq, hlt⟩
  · omega
  · omega
  · rw [heq]
    exact hlt

theorem insert_size_le {c : Cache Key Value} (hw : WF c)
    (hlow : 1 ≤ c.lowWatermark) (hlh : c.lowWatermark ≤ c.highWatermark)
    (k : Key) (v : Value) :
    (Cache.insert c k v).1.map.length ≤ c.highWatermark := by
  have hbound := enforce_size_succ_le hw hlow hlh
  rcases hf : mapFind (Cache.enforceHighWatermark c).1.map k with _ | w
  · rw [insert_eq_new hf v]
    simpa using hbound
  · rw [insert_eq_existing hf v]
    simp only [length_mapReplace]
    omega

theorem enforce_runs {c : Cache Key Value} (hw : WF c)
    (h : c.highWatermark ≤ c.map.length) :
    (Cache.enforceHighWatermark c).1.map.length < c.lowWatermark ∨
    (Cache.enforceHighWatermark c).1.map.length = 0 := by
  obtain ⟨-, -, h3⟩ := enforce_wf hw
  rcases h3 with h1 | h1 | ⟨heq, hlt⟩
  · exact Or.inl h1
  · exact Or.inr h1
  · omega

/-! FIFO runs: each eviction removes exactly the front of the queue, and
reads never change the state (claim C5). -/

theorem tryGetValue_fifo_state {c : Cache Key Value}
    (h : c.evictionPolicy = CacheEvictionPolicy.e_FIFO) (k : Key)
    (m : Bool) : (Cache.tryGetValue c k m).1 = c := by
  rcases hf : mapFind c.map k with _ | v
  · simp [Cache.tryGetValue, hf]
  · have hc : ¬ (c.evictionPolicy = CacheEvictionPolicy.e_LRU ∧
        m = true) := by
      intro hc
      rw [h] at hc
      exact absurd hc.1 (by simp)
    simp [Cache.tryGetValue, hf, hc]

theorem evictItem_head_kv {c : Cache Key Key} {k : Key} {rest : List Key}
    (hw : WF c) (hkv : KV c) (hcb : c.cbSet = true)
    (hq : c.queue = k :: rest) :
    (Cache.evictItem c k).1.queue = rest ∧
    (Cache.evictItem c k).2 = [k] ∧
    WF (Cache.evictItem c k).1 ∧ KV (Cache.evictItem c k).1 ∧
    params (Cache.evictItem c k).1 = params c := by
  have hmem : k ∈ c.queue := by simp [hq]
  have hv : mapFind c.map k = some k := by
    have := hkv k
    simpa [hmem] using this
  have hkeys : (c.map.map Prod.fst).Nodup := hw.2.nodup hw.1
  have hknr : k ∉ rest := by
    have := hw.1
    rw [hq, List.nodup_cons] at this
    exact this.1
  refine ⟨?_, ?_, evictItem_wf hw k, ?_, params_evictItem c k⟩
  · rw [evictItem_spec hv]
    simp [hq, queueErase_cons_self]
  · rw [evictItem_spec hv]
    simp [hcb]
  · intro k2
    rw [evictItem_spec hv]
    simp only [hq, queueErase_cons_self]
    by_cases h2 : k2 = k
    · subst h2
      simp [mapFind_mapErase_self hkeys, hknr]
    · rw [mapFind_mapErase_ne h2]
      have := hkv k2
      rw [hq] at this
      simpa [h2] using this

theorem evictLoop_fifo :
    ∀ (fuel : Nat) (c : Cache Key Key), WF c → KV c → c.cbSet = true →
      c.map.length ≤ fuel →
      ∃ j, (Cache.evictLoop c fuel).1.queue = c.queue.drop j ∧
        (Cache.evictLoop c fuel).2 = c.queue.take j ∧
        WF (Cache.evictLoop c fuel).1 ∧ KV (Cache.evictLoop c fuel).1 ∧
        params (Cache.evictLoop c fuel).1 = params c := by
  intro fuel
  induction fuel with
  | zero =>
      intro c hw hkv hcb hle
      exact ⟨0, by simp [Cache.evictLoop], by simp [Cache.evictLoop],
        hw, hkv, rfl⟩
  | succ fuel ih =>
      intro c hw hkv hcb hle
      by_cases hcond : c.lowWatermark ≤ c.map.length ∧ 0 < c.map.length
      · rcases hq : c.queue with _ | ⟨k, rest⟩
        · exact absurd hq (wf_queue_ne_nil hw hcond.2)
        · obtain ⟨hq1, he1, hw1, hkv1, hp1⟩ := evictItem_head_kv hw hkv hcb hq
          obtain ⟨v, hv⟩ := wf_front_mem hw hq
          have hlen := evictItem_length hv
          have hle1 : (Cache.evictItem c k).1.map.length ≤ fuel := by
            have h2 : (Cache.evictItem c k).1.map.length + 1 ≤ fuel + 1 := by
              rw [hlen]
              exact hle
            exact Nat.succ_le_succ_iff.mp h2
          have hcb1 : (Cache.evictItem c k).1.cbSet = true := by
            rw [(params_fields hp1).2.2.2]
            exact hcb
          obtain ⟨j, hj1, hj2, hj3, hj4, hj5⟩ := ih _ hw1 hkv1 hcb1 hle1
          refine ⟨j + 1, ?_, ?_, ?_, ?_, ?_⟩
          · simp only [Cache.evictLoop, if_pos hcond, hq]
            rw [hj1, hq1, List.drop_succ_cons]
          · simp only [Cache.evictLoop, if_pos hcond, hq]
            rw [hj2, he1, hq1, List.take_succ_cons, List.singleton_append]
          · simpa [Cache.evictLoop, hcond, hq] using hj3
          · simpa [Cache.evictLoop, hcond, hq] using hj4
          · simp only [Cache.evictLoop, if_pos hcond, hq]
            exact hj5.trans hp1
      · have heq : Cache.evictLoop c (fuel + 1) = (c, []) := by
          simp [Cache.evictLoop, hcond]
        exact ⟨0, by rw [heq]; simp, by rw [heq]; simp,
          by rw [heq]; exact hw, by rw [heq]; exact hkv, by rw [heq]⟩

theorem enforce_fifo {c : Cache Key Key} (hw : WF c) (hkv : KV c)
    (hcb : c.cbSet = true) :
    ∃ j, (Cache.enforceHighWatermark c).1.queue = c.queue.drop j ∧
      (Cache.enforceHighWatermark c).2 = c.queue.take j ∧
      WF (Cache.enforceHighWatermark c).1 ∧
      KV (Cache.enforceHighWatermark c).1 ∧
      params (Cache.enforceHighWatermark c).1 = params c := by
  by_cases hlt : c.map.length < c.highWatermark
  · have heq : Cache.enforceHighWatermark c = (c, []) := by
      simp [Cache.enforceHighWatermark, hlt]
    exact ⟨0, by rw [heq]; simp, by rw [heq]; simp,
      by rw [heq]; exact hw, by rw [heq]; exact hkv, by rw [heq]⟩
  · have heq : Cache.enforceHighWatermark c =
        Cache.evictLoop c c.map.length := by
      simp [Cache.enforceHighWatermark, hlt]
    rw [heq]
    exact evictLoop_fifo c.map.length c hw hkv hcb (Nat.le_refl _)

theorem insert_fifo_fresh {c : Cache Key Key} (hw : WF c) (hkv : KV c)
    (hcb : c.cbSet = true) {k : Key} (hk : k ∉ c.queue) :
    ∃ j, (Cache.insert c k k).1.queue = c.queue.drop j ++ [k] ∧
      (Cache.insert c k k).2 = c.queue.take j ∧
      WF (Cache.insert c k k).1 ∧ KV (Cache.insert c k k).1 ∧
      params (Cache.insert c k k).1 = params c := by
  have hwI := insert_wf hw k k
  obtain ⟨j, hq1, he1, hw1, hkv1, hp1⟩ := enforce_fifo hw hkv hcb
  have hknotin : k ∉ (Cache.enforceHighWatermark c).1.queue := by
    rw [hq1]
    exact fun h => hk (List.mem_of_mem_drop h)
  have hf : mapFind (Cache.enforceHighWatermark c).1.map k = none := by
    have := hkv1 k
    simpa [hknotin] using this
  refine ⟨j, ?_, ?_, hwI.1, ?_, hwI.2⟩
  · rw [insert_eq_new hf k]
    simpa using hq1
  · rw [insert_eq_new hf k]
    simpa using he1
  · intro k2
    rw [insert_eq_new hf k]
    by_cases h2 : k2 = k
    · subst h2
      simp [mapFind]
    · have hne : ¬ k = k2 := fun hh => h2 (Eq.symm hh)
      have hthis := hkv1 k2
      simp only [mapFind, hne, if_false]
      rw [hthis]
      by_cases hm : k2 ∈ (Cache.enforceHighWatermark c).1.queue <;>
        simp [hm, h2]

theorem runOps_fifo :
    ∀ (ops : List (CacheOp Key Key)) (c : Cache Key Key),
      WF c → KV c → c.evictionPolicy = CacheEvictionPolicy.e_FIFO →
      c.cbSet = true → insSelfVals ops = true →
      (c.queue ++ insertKeys ops).Nodup →
      WF (runOps c ops).1 ∧ KV (runOps c ops).1 ∧
      (runOps c ops).1.evictionPolicy = CacheEvictionPolicy.e_FIFO ∧
      (runOps c ops).1.cbSet = true ∧
      (runOps c ops).2 ++ (runOps c ops).1.queue =
        c.queue ++ insertKeys ops := by
  intro ops
  induction ops with
  | nil =>
      intro c hw hkv hpol hcb hself hnd
      exact ⟨hw, hkv, hpol, hcb, by simp [runOps, insertKeys]⟩
  | cons op rest ih =>
      intro c hw hkv hpol hcb hself hnd
      cases op with
      | opGet k m =>
          have hst := tryGetValue_fifo_state hpol k m
          have hrun : runOps c (CacheOp.opGet k m :: rest) =
              ((runOps c rest).1, (runOps c rest).2) := by
            simp [runOps, hst]
          have hik : insertKeys (CacheOp.opGet k m :: rest) =
              insertKeys rest := rfl
          rw [hrun, hik]
          have hselfr : insSelfVals rest = true := by
            simpa [insSelfVals] using hself
          have hndr : (c.queue ++ insertKeys rest).Nodup := by
            rw [hik] at hnd
            exact hnd
          exact ih c hw hkv hpol hcb hselfr hndr
      | opInsert k v =>
          have hself2 : v = k ∧ insSelfVals rest = true := by
            simpa [insSelfVals, Bool.and_eq_true] using hself
          obtain ⟨hveq, hselfr⟩ := hself2
          subst hveq
          have hik : insertKeys (CacheOp.opInsert v v :: rest) =
              v :: insertKeys rest := rfl
          rw [hik] at hnd
          have hdisj := (List.nodup_append.mp hnd).2.2
          have hkq : v ∉ c.queue := fun hkc =>
            hdisj hkc (List.mem_cons_self v _)
          obtain ⟨j, hq1, he1, hw1, hkv1, hp1⟩ :=
            insert_fifo_fresh hw hkv hcb hkq
          have hpf := params_fields hp1
          have hnd1 : ((Cache.insert c v v).1.queue ++
              insertKeys rest).Nodup := by
            have hsub : List.Sublist
                ((Cache.insert c v v).1.queue ++ insertKeys rest)
                (c.queue ++ v :: insertKeys rest) := by
              rw [hq1, List.append_assoc, List.singleton_append]
              exact (List.drop_sublist j c.queue).append_right _
            exact List.Nodup.sublist hsub hnd
          obtain ⟨hwf, hkvf, hpolf, hcbf, heqf⟩ := ih (Cache.insert c v v).1
            hw1 hkv1 (hpf.1.trans hpol) (hpf.2.2.2.trans hcb) hselfr hnd1
          have hrun : runOps c (CacheOp.opInsert v v :: rest) =
              ((runOps (Cache.insert c v v).1 rest).1,
                (Cache.insert c v v).2 ++
                  (runOps (Cache.insert c v v).1 rest).2) := by
            simp [runOps]
          rw [hrun, hik]
          refine ⟨hwf, hkvf, hpolf, hcbf, ?_⟩
          calc ((Cache.insert c v v).2 ++
                  (runOps (Cache.insert c v v).1 rest).2) ++
                (runOps (Cache.insert c v v).1 rest).1.queue
              = (Cache.insert c v v).2 ++
                  ((runOps (Cache.insert c v v).1 rest).2 ++
                    (runOps (Cache.insert c v v).1 rest).1.queue) := by
                rw [List.append_assoc]
            _ = c.queue.take j ++ ((c.queue.drop j ++ [v]) ++
                  insertKeys rest) := by rw [he1, heqf, hq1]
            _ = (c.queue.take j ++ c.queue.drop j) ++
                  (v :: insertKeys rest) := by
                rw [List.append_assoc, List.append_assoc,
                  List.singleton_append]
            _ = c.queue ++ v :: insertKeys rest := by
                rw [List.take_append_drop]

theorem drainCalls_spec :
    ∀ (n : Nat) (c : Cache Key Key), WF c → KV c → c.cbSet = true →
      c.queue.length ≤ n → drainCalls c n = c.queue := by
  intro n
  induction n with
  | zero =>
      intro c hw hkv hcb hle
      have hq : c.queue = [] := List.length_eq_zero.mp (Nat.le_zero.mp hle)
      simp [drainCalls, hq]
  | succ n ih =>
      intro c hw hkv hcb hle
      rcases hq : c.queue with _ | ⟨k, rest⟩
      · have hm : c.map.length = 0 := by
          have := hw.2.length_eq
          rw [hq] at this
          simpa using this.symm
        have hpop : Cache.popFront c = (c, [], 1) := by
          simp [Cache.popFront, Cache.size, hm]
        have hrest : drainCalls c n = c.queue :=
          ih c hw hkv hcb (by rw [hq]; simp)
        simp [drainCalls, hpop, hrest, hq]
      · have hpos : 0 < Cache.size c := by
          have hlq := hw.2.length_eq
          rw [hq] at hlq
          simp only [List.length_cons, List.length_map] at hlq
          simp only [Cache.size]
          omega
        obtain ⟨hq1, he1, hw1, hkv1, hp1⟩ := evictItem_head_kv hw hkv hcb hq
        have hpop : Cache.popFront c =
            ((Cache.evictItem c k).1, (Cache.evictItem c k).2, 0) := by
          simp [Cache.popFront, hpos, hq]
        have hcb1 : (Cache.evictItem c k).1.cbSet = true := by
          rw [(params_fields hp1).2.2.2]
          exact hcb
        have hlen1 : (Cache.evictItem c k).1.queue.length ≤ n := by
          rw [hq1]
          have := congrArg List.length hq
          simp at this
          omega
        have hrest : drainCalls (Cache.evictItem c k).1 n =
            (Cache.evictItem c k).1.queue :=
          ih _ hw1 hkv1 hcb1 hlen1
        simp [drainCalls, hpop, he1, hrest, hq1, hq]

theorem mapFind_insert_self (c : Cache Key Value) (k : Key) (v : Value) :
    mapFind (Cache.insert c k v).1.map k = some v := by
  rcases hf : mapFind (Cache.enforceHighWatermark c).1.map k with _ | w
  · rw [insert_eq_new hf v]
    simp [mapFind]
  · rw [insert_eq_existing hf v]
    exact mapFind_mapReplace_self hf v

/-! Claim theorems. -/

/-- Claim C1, counterexample: in the claimed scenario (LRU cache with
lowWatermark 3 and highWatermark 4; insert keys 0, 1, 2, insert key 1
again, insert key 3, then insert key 4) the cache after the final insert
does not contain key 2, while key 1 is still present, so the final key set
is not the one the claim states (2, 3 and 4). -/
theorem C1_counterexample :
    mapFind c1InsertFour.1.map 2 = none ∧
    (mapFind c1InsertFour.1.map 1).isSome = true := by decide

/-- Claim C1 (amended): with lowWatermark 3 and highWatermark 4, inserting
keys 0, 1, 2 gives size 3; inserting key 1 again leaves size 3 (and moves
key 1 to the back of the queue); inserting key 3 gives size 4 with no
eviction; inserting key 4 evicts from the front of the queue until the
size is below 3 (evicting keys 0 and 2) and then adds key 4, returning
with size 3 and final key set 1, 3 and 4. -/
theorem C1_amended :
    Cache.size (Cache.insert (Cache.insert (Cache.insert
      (Cache.setPostEvictionCallback (mkCache Nat Nat
        CacheEvictionPolicy.e_LRU 3 4) true) 0 100).1 1 101).1 2 102).1
      = 3 ∧
    Cache.size c1AfterReinsert = 3 ∧
    Cache.size c1InsertThree.1 = 4 ∧ c1InsertThree.2 = [] ∧
    Cache.size c1InsertFour.1 = 3 ∧
    c1InsertFour.2 = [100, 102] ∧
    c1InsertFour.1.queue = [1, 3, 4] ∧
    mapFind c1InsertFour.1.map 1 = some 201 ∧
    mapFind c1InsertFour.1.map 3 = some 103 ∧
    mapFind c1InsertFour.1.map 4 = some 104 ∧
    mapFind c1InsertFour.1.map 0 = none ∧
    mapFind c1InsertFour.1.map 2 = none := by decide

/-- Claim C2, counterexample: inserting four distinct keys into an LRU
cache with lowWatermark 3 and highWatermark 4 returns with
size equal to the high watermark, so `size() < highWatermark` fails after
an insert even though the watermarks are not both 1. -/
theorem C2_counterexample :
    ¬ (Cache.size c2FourInserts < c2FourInserts.highWatermark) ∧
    ¬ (c2FourInserts.highWatermark = 1 ∧ c2FourInserts.lowWatermark = 1) ∧
    Cache.size c2FourInserts = 4 ∧ c2FourInserts.highWatermark = 4 := by
  decide

/-- Claim C2 (amended): for every reachable cache with
`1 <= lowWatermark <= highWatermark`, after any insert call returns,
`size() <= highWatermark` (equality is attainable, so the strict bound of
the original claim fails); and whenever the eviction pass inside an
insert runs (`size() >= highWatermark`), it does not stop before
`size() < lowWatermark` or the cache is empty. -/
theorem C2_amended {c : Cache Key Value} (h : Reachable c)
    (hlow : 1 ≤ c.lowWatermark) (hlh : c.lowWatermark ≤ c.highWatermark)
    (k : Key) (v : Value) :
    Cache.size (Cache.insert c k v).1 ≤ c.highWatermark ∧
    (c.highWatermark ≤ Cache.size c →
      Cache.size (Cache.enforceHighWatermark c).1 < c.lowWatermark ∨
      Cache.size (Cache.enforceHighWatermark c).1 = 0) := by
  have hw := reachable_wf h
  exact ⟨insert_size_le hw hlow hlh k v, fun hh => enforce_runs hw hh⟩

/-- Claim C2, witness: the amended bound evaluated on a concrete reachable
cache. -/
theorem C2_witness :
    1 ≤ c2FourInserts.lowWatermark ∧
    c2FourInserts.lowWatermark ≤ c2FourInserts.highWatermark ∧
    Cache.size (Cache.insert c2FourInserts 4 104).1 ≤
      c2FourInserts.highWatermark := by
  have hr : Reachable c2FourInserts :=
    Reachable.insStep 3 103 (Reachable.insStep 2 102 (Reachable.insStep 1
      101 (Reachable.insStep 0 100 (Reachable.mkStep
        CacheEvictionPolicy.e_LRU 3 4))))
  exact ⟨by decide, by decide,
    (C2_amended hr (by decide) (by decide) 4 104).1⟩

/-- Claim C3: on every state reachable by the public manipulators, a key
has a map entry exactly when it is on the eviction queue, each queued key
occupies exactly one queue position and one map entry, and `size()`
agrees with the map count and the queue length. -/
theorem C3_bijection {c : Cache Key Value} (h : Reachable c) :
    (∀ k : Key, (mapFind c.map k).isSome ↔ k ∈ c.queue) ∧
    (∀ k : Key, k ∈ c.queue → c.queue.count k = 1) ∧
    (∀ k : Key, k ∈ c.queue → (c.map.map Prod.fst).count k = 1) ∧
    Cache.size c = c.map.length ∧ c.map.length = c.queue.length := by
  have hw := reachable_wf h
  refine ⟨?_, ?_, ?_, rfl, ?_⟩
  · intro k
    rw [mapFind_isSome]
    exact hw.2.mem_iff.symm
  · intro k hk
    exact List.count_eq_one_of_mem hw.1 hk
  · intro k hk
    exact List.count_eq_one_of_mem (hw.2.nodup hw.1) (hw.2.mem_iff.mp hk)
  · have hl : c.queue.length = c.map.length := by
      simpa using hw.2.length_eq
    exact hl.symm

/-- Claim C3, witness: the bijection evaluated on a concrete reachable
cache. -/
theorem C3_witness :
    ((mapFind c2FourInserts.map 2).isSome ↔ 2 ∈ c2FourInserts.queue) ∧
    c2FourInserts.map.length = c2FourInserts.queue.length := by
  have hr : Reachable c2FourInserts :=
    Reachable.insStep 3 103 (Reachable.insStep 2 102 (Reachable.insStep 1
      101 (Reachable.insStep 0 100 (Reachable.mkStep
        CacheEvictionPolicy.e_LRU 3 4))))
  exact ⟨(C3_bijection hr).1 2, (C3_bijection hr).2.2.2.2⟩

/-- Claim C4: with LRU policy, lowWatermark 2 and highWatermark 3, after
inserting keys 0 (A), 1 (B), 2 (C) and reading key 0 with
`modifyEvictionQueue` true, inserting new key 3 (D) evicts key 1 (B, the
least recently touched key, whose value 11 is the first callback
argument) while key 0 (A) remains in the cache. -/
theorem C4_lru_touch :
    mapFind c4InsertD.1.map 1 = none ∧
    mapFind c4InsertD.1.map 0 = some 10 ∧
    c4InsertD.2.head? = some 11 ∧
    mapFind c4InsertD.1.map 3 = some 13 := by decide

/-- Claim C5: with FIFO policy, reads never change the cache state (so
they never reorder the eviction queue), and for any run mixing reads with
inserts of distinct keys (each inserted as its own value so evictions are
identifiable), the values that leave the cache — through watermark
enforcement during the inserts and then through draining `popFront`
calls — are exactly the inserted keys in insertion order. -/
theorem C5_fifo_order (low high : Nat) (ops : List (CacheOp Key Key))
    (hself : insSelfVals ops = true) (hnd : (insertKeys ops).Nodup) :
    (∀ (c : Cache Key Key) (k : Key) (m : Bool),
        c.evictionPolicy = CacheEvictionPolicy.e_FIFO →
        (Cache.tryGetValue c k m).1 = c) ∧
    (fifoRun Key low high ops).2 ++
      drainCalls (fifoRun Key low high ops).1
        (Cache.size (fifoRun Key low high ops).1) =
      insertKeys ops := by
  refine ⟨fun c k m h => tryGetValue_fifo_state h k m, ?_⟩
  have hw0 : WF (Cache.setPostEvictionCallback
      (mkCache Key Key CacheEvictionPolicy.e_FIFO low high) true) :=
    ⟨List.nodup_nil, List.Perm.nil⟩
  have hkv0 : KV (Cache.setPostEvictionCallback
      (mkCache Key Key CacheEvictionPolicy.e_FIFO low high) true) := by
    intro k
    simp [mapFind, Cache.setPostEvictionCallback, mkCache]
  have hnd0 : ((Cache.setPostEvictionCallback
      (mkCache Key Key CacheEvictionPolicy.e_FIFO low high) true).queue ++
      insertKeys ops).Nodup := by
    simpa [Cache.setPostEvictionCallback, mkCache] using hnd
  obtain ⟨hwf, hkvf, hpolf, hcbf, heqf⟩ := runOps_fifo ops
    (Cache.setPostEvictionCallback
      (mkCache Key Key CacheEvictionPolicy.e_FIFO low high) true)
    hw0 hkv0 rfl rfl hself hnd0
  have hlen : (fifoRun Key low high ops).1.queue.length ≤
      Cache.size (fifoRun Key low high ops).1 := by
    have hl := hwf.2.length_eq
    simp only [List.length_map] at hl
    simp only [fifoRun, Cache.size]
    exact hl.le
  have hdrain := drainCalls_spec (Cache.size (fifoRun Key low high ops).1)
    (fifoRun Key low high ops).1 hwf hkvf hcbf hlen
  rw [hdrain]
  simpa [fifoRun, Cache.setPostEvictionCallback, mkCache] using heqf

/-- Claim C5, witness: a concrete FIFO run with low watermark 1 and high
watermark 2, three distinct inserted keys and interleaved reads, whose
eviction order is the insertion order 1, 2, 3. -/
theorem C5_witness :
    (fifoRun Nat 1 2 [CacheOp.opInsert 1 1, CacheOp.opGet 1 true,
        CacheOp.opInsert 2 2, CacheOp.opGet 9 false,
        CacheOp.opInsert 3 3]).2 ++
      drainCalls (fifoRun Nat 1 2 [CacheOp.opInsert 1 1,
          CacheOp.opGet 1 true, CacheOp.opInsert 2 2,
          CacheOp.opGet 9 false, CacheOp.opInsert 3 3]).1
        (Cache.size (fifoRun Nat 1 2 [CacheOp.opInsert 1 1,
          CacheOp.opGet 1 true, CacheOp.opInsert 2 2,
          CacheOp.opGet 9 false, CacheOp.opInsert 3 3]).1) =
      insertKeys [CacheOp.opInsert 1 1, CacheOp.opGet 1 true,
        CacheOp.opInsert 2 2, CacheOp.opGet 9 false,
        CacheOp.opInsert 3 3] :=
  (C5_fifo_order 1 2 _ (by decide) (by decide)).2

/-- Claim C6: `clear()` leaves the cache empty — empty map, empty queue,
`size()` zero — and never invokes the post-eviction callback, whatever
the previous contents and whether a callback is installed. -/
theorem C6_clear (c : Cache Key Value) :
    (Cache.clear c).1.map = [] ∧ (Cache.clear c).1.queue = [] ∧
    Cache.size (Cache.clear c).1 = 0 ∧ (Cache.clear c).2 = [] := by
  simp [Cache.clear, Cache.size]

/-- Claim C7: if the map emplacement step of an insert of a new key fails
after the key was pushed onto the back of the queue, the `QueueProctor`
rollback pops that key again, so the state after the failed insert equals
the state before the queue push: no partially inserted entry is
observable and the map/queue bijection is untouched. -/
theorem C7_rollback (c : Cache Key Value) (key : Key) :
    Cache.insertNewKeyMapFailure c key = c ∧
    (WF (Cache.insertNewKeyMapFailure c key) ↔ WF c) := by
  have h : Cache.insertNewKeyMapFailure c key = c := by
    cases c with
    | mk m q pol low high cb =>
        simp [Cache.insertNewKeyMapFailure, queueProctorRollback]
  exact ⟨h, by rw [h]⟩

/-- Claim C8: erasing an absent key returns the not-found status (1) and
leaves the cache bitwise unchanged with no callback invocation; erasing a
present key returns 0, removes exactly that entry from the map and the
queue, shrinks the size by one, and invokes the callback once with the
entry's value handle when a callback is installed. -/
theorem C8_erase (c : Cache Key Value) (k : Key) :
    (mapFind c.map k = none → Cache.erase c k = (c, [], 1)) ∧
    (∀ v : Value, mapFind c.map k = some v →
      (Cache.erase c k).2.2 = 0 ∧
      (Cache.erase c k).1.map = mapErase c.map k ∧
      (Cache.erase c k).1.queue = queueErase c.queue k ∧
      (Cache.erase c k).2.1 = (if c.cbSet then [v] else []) ∧
      Cache.size (Cache.erase c k).1 + 1 = Cache.size c) := by
  constructor
  · intro hf
    simp [Cache.erase, hf]
  · intro v hf
    have he := evictItem_spec hf
    have h1 : Cache.erase c k =
        ((Cache.evictItem c k).1, (Cache.evictItem c k).2, 0) := by
      simp [Cache.erase, hf]
    rw [h1, he]
    refine ⟨rfl, rfl, rfl, rfl, ?_⟩
    simpa [Cache.size] using length_mapErase hf

/-- Claim C8, witness: erasing the absent key 9 and the present key 1 on
a concrete cache holding keys 0, 1, 2 with a callback installed. -/
theorem C8_witness :
    Cache.erase c1AfterReinsert 9 = (c1AfterReinsert, [], 1) ∧
    (Cache.erase c1AfterReinsert 1).2.2 = 0 ∧
    (Cache.erase c1AfterReinsert 1).2.1 = [201] ∧
    Cache.size (Cache.erase c1AfterReinsert 1).1 + 1 =
      Cache.size c1AfterReinsert := by
  have h := C8_erase c1AfterReinsert 9
  have h2 := C8_erase c1AfterReinsert 1
  refine ⟨h.1 (by decide), (h2.2 201 (by decide)).1, ?_,
    (h2.2 201 (by decide)).2.2.2.2⟩
  have hev := (h2.2 201 (by decide)).2.2.2.1
  rw [hev]
  decide

/-- Claim C9: for every cache whose watermarks satisfy the construction
precondition, `insert(k, v)` immediately followed by `tryGetValue` for
`k` (with either value of `modifyEvictionQueue`) succeeds and yields the
value `v`. -/
theorem C9_roundtrip (c : Cache Key Value) (k : Key) (v : Value)
    (modify : Bool) (hlow : 1 ≤ c.lowWatermark)
    (hlh : c.lowWatermark ≤ c.highWatermark) :
    (Cache.tryGetValue (Cache.insert c k v).1 k modify).2 = some v := by
  have hm := mapFind_insert_self c k v
  simp only [Cache.tryGetValue, hm]
  split
  · split <;> rfl
  · rfl

/-- Claim C9, witness: the round trip evaluated on a concrete cache. -/
theorem C9_witness :
    (Cache.tryGetValue (Cache.insert (mkCache Nat Nat
      CacheEvictionPolicy.e_LRU 2 3) 5 9).1 5 true).2 = some 9 :=
  C9_roundtrip (mkCache Nat Nat CacheEvictionPolicy.e_LRU 2 3) 5 9 true
    (by decide) (by decide)

/-- Claim C10: with lowWatermark and highWatermark both 1, a callback
installed, and the cache holding only key 7, inserting key 7 again runs
the watermark pass before the lookup, so the pass evicts key 7 itself and
invokes the callback with its old value 10; key 7 is then re-added as a
fresh entry at the back of the queue with the new value 20, and the cache
still holds exactly one entry. -/
theorem C10_self_eviction :
    c10Reinsert.2 = [10] ∧
    mapFind c10Reinsert.1.map 7 = some 20 ∧
    c10Reinsert.1.queue = [7] ∧
    Cache.size c10Reinsert.1 = 1 := by decide

end BdlccCache
